import Mathlib

/-!
Verification development for the profile-merge engine of the 4th Arrow
Tournament Control application (`src/commands/merge.py`, `core/logging.py`,
`core/models.py`).

The Python code is shallowly embedded: a user row becomes a `UserRec`, the
database a `List UserRec`, the append-only audit log a `List AuditEntry`.
`merge_profiles` is modelled as a pure function from the pre-state (plus the
operator inputs: interactive resolution choices, the confirmation answer, and
whether the audit write succeeds) to an exit code and the post-state.

Modelling notes, faithful to the source:
* Python truthiness of a nullable string column is `truthy`: `None` and the
  empty string are falsy; a whitespace-only string is truthy.
* `return` from inside `with session.begin():` is a normal exit of the context
  manager, which COMMITS the transaction: any `setattr` already performed on
  the locked rows is flushed.  Early returns therefore write the mutated
  primary back to the database (`updateUser`).  A `KeyboardInterrupt` is caught
  and followed by `session.rollback()`, so the pre-state is returned unchanged.
* Interactive prompting (`click.prompt`) is modelled by a list of eventual
  valid choices; invalid entries only repeat the prompt without effect, so they
  are elided.  An exhausted choice list models the operator interrupting, which
  the source maps to rollback and exit code 5.
* Console output (`rich`/`click.echo`), including `_show_dry_run_preview` and
  the `all_conflicts` preview dictionary it consumes, is pure display and
  carries no state, so it is not modelled.
-/

/-- A user row (`core/models.py`, class `User`): the five mergeable nullable
string columns, the identity, the names (never touched by merge), and the
soft-delete timestamp (`deleted_at`, modelled as `Option Nat`). -/
structure UserRec where
  id : Nat
  first_name : String
  last_name : String
  email : Option String
  phone : Option String
  address : Option String
  usbc_id : Option String
  tnba_id : Option String
  deleted_at : Option Nat
deriving Repr, DecidableEq

/-- Python truthiness of a nullable string: `None` and `""` are falsy. -/
def truthy : Option String → Bool
  | none => false
  | some s => !(s == "")

/-- Python `str(value)` on a nullable string (only reached on truthy values in
the merge code, where it is the identity). -/
def strOf : Option String → String
  | none => "None"
  | some s => s

/-- ASCII whitespace as recognised by Python's `str.strip()`. -/
def isSpaceChar (c : Char) : Bool :=
  c = ' ' || c = '\t' || c = '\n' || c = '\r' || c = '\x0b' || c = '\x0c'

/-- Python's `str.strip()`: drop leading and trailing whitespace.  (Defined on
the character list so that it evaluates inside the kernel.) -/
def pyStrip (s : String) : String :=
  String.mk (((s.data.dropWhile isSpaceChar).reverse.dropWhile isSpaceChar).reverse)

/-- `User.is_deleted` (`core/models.py`): the `deleted_at` timestamp is set. -/
def is_deleted (u : UserRec) : Bool :=
  u.deleted_at.isSome

/-- `User.soft_delete` (`core/models.py`): set `deleted_at` to the current
time. -/
def soft_delete (u : UserRec) (now : Nat) : UserRec :=
  { u with deleted_at := some now }

/-- `getattr(user, field)` restricted to the five mergeable fields. -/
def getField (u : UserRec) (f : String) : Option String :=
  if f = "email" then u.email
  else if f = "phone" then u.phone
  else if f = "address" then u.address
  else if f = "usbc_id" then u.usbc_id
  else if f = "tnba_id" then u.tnba_id
  else none

/-- `setattr(user, field, value)` restricted to the five mergeable fields. -/
def setField (u : UserRec) (f : String) (v : Option String) : UserRec :=
  if f = "email" then { u with email := v }
  else if f = "phone" then { u with phone := v }
  else if f = "address" then { u with address := v }
  else if f = "usbc_id" then { u with usbc_id := v }
  else if f = "tnba_id" then { u with tnba_id := v }
  else u

/-- `RESOLUTION_MODES` (merge.py line 21). -/
def RESOLUTION_MODES : List String := ["prefer_main", "prefer_merge", "prefer_longest"]

/-- The field list iterated by `_detect_conflicts` (`conflict_fields`) and
`_merge_non_conflicting_fields` (`mergeable_fields`) — the same five names. -/
def conflict_fields : List String := ["email", "phone", "address", "usbc_id", "tnba_id"]

/-- A detected conflict: field name, main value, merge value. -/
abbrev Conflict := String × Option String × Option String

/-- `_detect_conflicts` (merge.py lines 154–182): a field conflicts when both
values are truthy and their `str(...).strip()` forms differ.  The result keeps
the field order of `conflict_fields` (a Python dict preserves insertion
order). -/
def detect_conflicts (main_user merge_user : UserRec) : List Conflict :=
  conflict_fields.filterMap (fun field =>
    let main_value := getField main_user field
    let merge_value := getField merge_user field
    if truthy main_value && truthy merge_value
        && !(pyStrip (strOf main_value) == pyStrip (strOf merge_value)) then
      some (field, main_value, merge_value)
    else none)

/-- Python truthiness of the optional `resolution_mode` argument
(`if resolution_mode or no_interactive`). -/
def modeTruthy : Option String → Bool
  | none => false
  | some s => !(s == "")

/-- One interactive answer eventually accepted by the `while True` prompt loop
in `_resolve_conflicts` (`1` = keep main, `2` = keep merge, `s` = skip). -/
inductive Choice where
  | keepMain
  | keepMerge
  | skip
deriving Repr, DecidableEq

/-- The automatic branch of `_resolve_conflicts` for one field
(merge.py lines 207–220). -/
def resolveAuto (resolution_mode : Option String) (main_value merge_value : Option String) :
    Option String × String :=
  if resolution_mode = some "prefer_main" then (main_value, "kept_primary")
  else if resolution_mode = some "prefer_merge" then (merge_value, "kept_duplicate")
  else if resolution_mode = some "prefer_longest" then
    if (strOf merge_value).length > (strOf main_value).length then (merge_value, "kept_longest")
    else (main_value, "kept_longest")
  else (main_value, "kept_primary")

/-- The interactive branch of `_resolve_conflicts` for one field, applied to
the eventually-valid operator answer (merge.py lines 229–246; `s` keeps the
main value). -/
def resolveChoice (c : Choice) (main_value merge_value : Option String) :
    Option String × String :=
  match c with
  | Choice.keepMain => (main_value, "kept_primary")
  | Choice.keepMerge => (merge_value, "kept_duplicate")
  | Choice.skip => (main_value, "kept_primary")

/-- `_resolve_conflicts` (merge.py lines 185–248).  The two record arguments of
the source are used only for console display and are omitted.  Returns the
ordered field-to-(value, tag) entries plus the unconsumed choices, or `none`
when the operator interrupts an interactive prompt (exhausted choices). -/
def resolve_conflicts (conflicts : List Conflict) (resolution_mode : Option String)
    (no_interactive : Bool) (choices : List Choice) :
    Option (List (String × Option String × String) × List Choice) :=
  match conflicts with
  | [] => some ([], choices)
  | (field, main_value, merge_value) :: rest =>
    if modeTruthy resolution_mode || no_interactive then
      match resolve_conflicts rest resolution_mode no_interactive choices with
      | none => none
      | some (rs, ch) =>
        some ((field, resolveAuto resolution_mode main_value merge_value) :: rs, ch)
    else
      match choices with
      | [] => none
      | c :: cs =>
        match resolve_conflicts rest resolution_mode no_interactive cs with
        | none => none
        | some (rs, ch) =>
          some ((field, resolveChoice c main_value merge_value) :: rs, ch)

/-- Helper for `_merge_non_conflicting_fields`: the loop body over an explicit
field list, threading the mutated main user. -/
def mergeGapsAux : List String → UserRec → UserRec → UserRec × List String
  | [], main_user, _ => (main_user, [])
  | field :: rest, main_user, merge_user =>
    if !truthy (getField main_user field) && truthy (getField merge_user field) then
      let r := mergeGapsAux rest (setField main_user field (getField merge_user field)) merge_user
      (r.1, field :: r.2)
    else
      mergeGapsAux rest main_user merge_user

/-- `_merge_non_conflicting_fields` (merge.py lines 251–274): fill every empty
main field that the merge user can provide; return the new main user and the
list of filled field names in iteration order. -/
def merge_non_conflicting_fields (main_user merge_user : UserRec) : UserRec × List String :=
  mergeGapsAux conflict_fields main_user merge_user

/-- Python dict write `m[k] = v`: update in place when the key exists
(preserving its position, as a Python dict does), otherwise append. -/
def dictInsert (m : List (String × String)) (k v : String) : List (String × String) :=
  if m.any (fun p => p.1 == k) then
    m.map (fun p => if p.1 = k then (k, v) else p)
  else
    m ++ [(k, v)]

/-- Python dict read `m.get(k)`. -/
def dictGet (m : List (String × String)) (k : String) : Option String :=
  (m.find? (fun p => p.1 == k)).map (fun p => p.2)

/-- merge.py lines 102–105: apply the resolved values to the main user and
record each resolution tag in `all_resolutions`. -/
def applyResolutions (main_user : UserRec) (all_resolutions : List (String × String))
    (resolved_values : List (String × Option String × String)) :
    UserRec × List (String × String) :=
  resolved_values.foldl
    (fun acc r => (setField acc.1 r.1 r.2.1, dictInsert acc.2 r.1 r.2.2))
    (main_user, all_resolutions)

/-- merge.py lines 110–111: tag every gap-filled field as `kept_duplicate`. -/
def tagFilled (all_resolutions : List (String × String)) (filled : List String) :
    List (String × String) :=
  filled.foldl (fun m f => dictInsert m f "kept_duplicate") all_resolutions

/-- Outcome of the per-duplicate loop (merge.py lines 83–111): the hard stop on
an email conflict (`return 2`), a `KeyboardInterrupt` raised inside an
interactive prompt, or normal completion with the final main user and the
accumulated resolution map. -/
inductive LoopOut where
  | emailStop (main_user : UserRec)
  | interrupted
  | done (main_user : UserRec) (all_resolutions : List (String × String))
deriving Repr, DecidableEq

/-- The `for merge_user in merge_users` loop of `merge_profiles`
(merge.py lines 83–111), threading the mutated main user, the accumulated
resolution map, and the remaining interactive choices.  In dry-run mode the
body only records conflicts for the preview, so nothing changes. -/
def processMergeUsers (dry_run : Bool) (resolution_mode : Option String)
    (no_interactive : Bool) :
    List UserRec → UserRec → List (String × String) → List Choice → LoopOut
  | [], main_user, all_resolutions, _ => LoopOut.done main_user all_resolutions
  | merge_user :: rest, main_user, all_resolutions, choices =>
    let conflicts := detect_conflicts main_user merge_user
    if dry_run then
      processMergeUsers dry_run resolution_mode no_interactive rest
        main_user all_resolutions choices
    else if conflicts.isEmpty then
      let gap := merge_non_conflicting_fields main_user merge_user
      processMergeUsers dry_run resolution_mode no_interactive rest
        gap.1 (tagFilled all_resolutions gap.2) choices
    else if no_interactive && !modeTruthy resolution_mode
        && conflicts.any (fun c => c.1 == "email") then
      LoopOut.emailStop main_user
    else
      match resolve_conflicts conflicts resolution_mode no_interactive choices with
      | none => LoopOut.interrupted
      | some (resolved_values, choicesRest) =>
        let ar := applyResolutions main_user all_resolutions resolved_values
        let gap := merge_non_conflicting_fields ar.1 merge_user
        processMergeUsers dry_run resolution_mode no_interactive rest
          gap.1 (tagFilled ar.2 gap.2) choicesRest

/-- `session.query(User).filter_by(id=uid).first()`: the database is a list of
rows; ids are a primary key, so lookup takes the first match. -/
def findUser (db : List UserRec) (uid : Nat) : Option UserRec :=
  db.find? (fun u => u.id == uid)

/-- Flushing one mutated row back into the table at commit time. -/
def updateUser (db : List UserRec) (u : UserRec) : List UserRec :=
  db.map (fun v => if v.id = u.id then u else v)

/-- Flushing a list of mutated rows back into the table. -/
def commitUsers (db : List UserRec) (us : List UserRec) : List UserRec :=
  us.foldl updateUser db

/-- merge.py lines 66–77: fetch and lock each merge user in the order given;
`none` when any is missing or already soft-deleted (the whole operation then
aborts with exit code 4). -/
def fetchMergeUsers (db : List UserRec) : List Nat → Option (List UserRec)
  | [] => some []
  | i :: rest =>
    match findUser db i with
    | none => none
    | some u =>
      if is_deleted u then none
      else (fetchMergeUsers db rest).map (fun us => u :: us)

/-- One record of `logs/merge_profile.log` (`core/logging.py`,
`log_merge_event`): the constant event tag, the timestamp, the primary id, the
merged ids in caller order, and the field-to-resolution-tag map. -/
structure AuditEntry where
  event : String
  timestamp : Nat
  primary_id : Nat
  merged_ids : List Nat
  field_resolutions : List (String × String)
deriving Repr, DecidableEq

/-- The log entry built by `log_merge_event` (`core/logging.py` lines 69–75). -/
def mkAuditEntry (now : Nat) (primary_id : Nat) (merged_ids : List Nat)
    (field_resolutions : List (String × String)) : AuditEntry :=
  { event := "MERGE_PROFILE", timestamp := now, primary_id := primary_id,
    merged_ids := merged_ids, field_resolutions := field_resolutions }

/-- Observable outcome of one `merge_profiles` invocation: the exit code, the
database after the transaction ends (commit or rollback), and the audit log. -/
structure MergeResult where
  exit_code : Nat
  db : List UserRec
  audit : List AuditEntry
deriving Repr, DecidableEq

/-- `merge_profiles` (merge.py lines 24–151).  Inputs beyond the source
signature model the environment: `db`/`audit` are the pre-state, `choices` the
operator's interactive answers, `confirm` the answer to `_confirm_merge`,
`audit_ok` whether `log_merge_event` succeeds (false models an I/O or
schema-validation error, which the generic `except Exception` handler turns
into exit code 1 after the transaction has already committed), `now` the clock.

Returns from inside `with session.begin():` commit the pending mutations of
the main user (`updateUser db _`); `KeyboardInterrupt` rolls back (`db`
unchanged). -/
def merge_profiles (db : List UserRec) (audit : List AuditEntry)
    (main_id : Nat) (merge_ids : List Nat)
    (dry_run : Bool) (resolution_mode : Option String) (no_interactive : Bool)
    (choices : List Choice) (confirm : Bool) (audit_ok : Bool) (now : Nat) :
    MergeResult :=
  if merge_ids.isEmpty || merge_ids.contains main_id then
    { exit_code := 4, db := db, audit := audit }
  else
    match findUser db main_id with
    | none => { exit_code := 4, db := db, audit := audit }
    | some main_user =>
      if is_deleted main_user then
        { exit_code := 4, db := db, audit := audit }
      else
        match fetchMergeUsers db merge_ids with
        | none => { exit_code := 4, db := db, audit := audit }
        | some merge_users =>
          match processMergeUsers dry_run resolution_mode no_interactive
              merge_users main_user [] choices with
          | LoopOut.emailStop main1 =>
            { exit_code := 2, db := updateUser db main1, audit := audit }
          | LoopOut.interrupted =>
            { exit_code := 5, db := db, audit := audit }
          | LoopOut.done main1 all_resolutions =>
            if dry_run then
              { exit_code := 0, db := db, audit := audit }
            else if !no_interactive && !confirm then
              { exit_code := 5, db := updateUser db main1, audit := audit }
            else
              let deleted := merge_users.map (fun u => soft_delete u now)
              let db1 := updateUser (commitUsers db deleted) main1
              if audit_ok then
                { exit_code := 0, db := db1,
                  audit := audit ++ [mkAuditEntry now main_id merge_ids all_resolutions] }
              else
                { exit_code := 1, db := db1, audit := audit }

/-- The main user carried by a loop outcome, when the loop was not
interrupted. -/
def loopMain : LoopOut → Option UserRec
  | LoopOut.emailStop m => some m
  | LoopOut.interrupted => none
  | LoopOut.done m _ => some m

/-- Replay a list of (field, tag) write events into a Python dict. -/
def upsertAll (m : List (String × String)) (evs : List (String × String)) :
    List (String × String) :=
  evs.foldl (fun acc e => dictInsert acc e.1 e.2) m

/-- The value of the last write event for a field, if any. -/
def lastWrite : List (String × String) → String → Option String
  | [], _ => none
  | e :: evs, f =>
    match lastWrite evs f with
    | some v => some v
    | none => if e.1 = f then some e.2 else none

/-- The (field, tag) pairs recorded from one call to the conflict resolver. -/
def resolutionEvents (resolved_values : List (String × Option String × String)) :
    List (String × String) :=
  resolved_values.map (fun r => (r.1, r.2.2))

/-- The (field, `kept_duplicate`) pairs recorded for one gap-fill pass. -/
def gapEvents (filled : List String) : List (String × String) :=
  filled.map (fun f => (f, "kept_duplicate"))

/-- The ordered trace of every resolution-map write performed by the
non-dry-run per-duplicate loop: for each duplicate, first the conflict
resolutions (in conflict order), then the gap-filled fields tagged
`kept_duplicate`.  `none` when the loop stops early (email hard stop or
interrupt).  `all_resolutions` at the end of the loop is exactly this trace
replayed through Python-dict writes (`upsertAll`), proved below. -/
def processTrace (resolution_mode : Option String) (no_interactive : Bool) :
    List UserRec → UserRec → List Choice → Option (List (String × String))
  | [], _, _ => some []
  | merge_user :: rest, main_user, choices =>
    let conflicts := detect_conflicts main_user merge_user
    if conflicts.isEmpty then
      let gap := merge_non_conflicting_fields main_user merge_user
      (processTrace resolution_mode no_interactive rest gap.1 choices).map
        (fun evs => gapEvents gap.2 ++ evs)
    else if no_interactive && !modeTruthy resolution_mode
        && conflicts.any (fun c => c.1 == "email") then
      none
    else
      match resolve_conflicts conflicts resolution_mode no_interactive choices with
      | none => none
      | some (resolved_values, choicesRest) =>
        let ar := applyResolutions main_user [] resolved_values
        let gap := merge_non_conflicting_fields ar.1 merge_user
        (processTrace resolution_mode no_interactive rest gap.1 choicesRest).map
          (fun evs => resolutionEvents resolved_values ++ gapEvents gap.2 ++ evs)

/-- The (id, soft-delete marker) column of the table, used to state that an
operation soft-deleted nothing. -/
def idDeleted (db : List UserRec) : List (Nat × Option Nat) :=
  db.map (fun u => (u.id, u.deleted_at))

/-- Concrete fixture rows for witnesses and counterexamples. -/
def sampleUser (i : Nat) (e p : Option String) : UserRec :=
  { id := i, first_name := "First", last_name := "Last", email := e, phone := p,
    address := none, usbc_id := none, tnba_id := none, deleted_at := none }

/-- A fixture row that is already soft-deleted. -/
def sampleDeleted (i : Nat) : UserRec :=
  { sampleUser i none none with deleted_at := some 1 }

/-- The cumulative effect of flushing the rows `us` on one table row: the row
is replaced by the last element of `us` carrying its id, if any. -/
def pointUpdate (us : List UserRec) (v : UserRec) : UserRec :=
  us.foldl (fun x w => if x.id = w.id then w else x) v

/-! ### Basic lemmas about fields and rows -/

theorem setField_id (u : UserRec) (f : String) (v : Option String) :
    (setField u f v).id = u.id := by
  unfold setField
  split_ifs <;> rfl

theorem setField_deleted_at (u : UserRec) (f : String) (v : Option String) :
    (setField u f v).deleted_at = u.deleted_at := by
  unfold setField
  split_ifs <;> rfl

theorem getField_setField_ne (u : UserRec) (f g : String) (v : Option String)
    (hfg : g ≠ f) : getField (setField u g v) f = getField u f := by
  unfold setField
  split_ifs with h1 h2 h3 h4 h5
  · subst h1
    unfold getField
    split_ifs with hq <;> simp_all
  · subst h2
    unfold getField
    split_ifs <;> simp_all
  · subst h3
    unfold getField
    split_ifs <;> simp_all
  · subst h4
    unfold getField
    split_ifs <;> simp_all
  · subst h5
    unfold getField
    split_ifs <;> simp_all
  · rfl

theorem getField_setField_self (u : UserRec) (f : String) (v : Option String)
    (hf : f ∈ conflict_fields) : getField (setField u f v) f = v := by
  simp only [conflict_fields, List.mem_cons, List.mem_singleton] at hf
  rcases hf with rfl | rfl | rfl | rfl | rfl | h
  · simp [getField, setField]
  · simp [getField, setField]
  · simp [getField, setField]
  · simp [getField, setField]
  · simp [getField, setField]
  · cases h

theorem applyResolutions_cons (u : UserRec) (m : List (String × String))
    (r : String × Option String × String) (rs : List (String × Option String × String)) :
    applyResolutions u m (r :: rs) =
      applyResolutions (setField u r.1 r.2.1) (dictInsert m r.1 r.2.2) rs := rfl

theorem applyResolutions_pres :
    ∀ (rs : List (String × Option String × String)) (u : UserRec) (m : List (String × String)),
      ((applyResolutions u m rs).1).id = u.id ∧
      ((applyResolutions u m rs).1).deleted_at = u.deleted_at := by
  intro rs
  induction rs with
  | nil => intro u m; exact ⟨rfl, rfl⟩
  | cons r rs ih =>
    intro u m
    rw [applyResolutions_cons]
    obtain ⟨h1, h2⟩ := ih (setField u r.1 r.2.1) (dictInsert m r.1 r.2.2)
    exact ⟨h1.trans (setField_id u r.1 r.2.1), h2.trans (setField_deleted_at u r.1 r.2.1)⟩

theorem mergeGapsAux_pres :
    ∀ (l : List String) (u v : UserRec),
      ((mergeGapsAux l u v).1).id = u.id ∧
      ((mergeGapsAux l u v).1).deleted_at = u.deleted_at := by
  intro l
  induction l with
  | nil => intro u v; exact ⟨rfl, rfl⟩
  | cons f l ih =>
    intro u v
    by_cases h : (!truthy (getField u f) && truthy (getField v f)) = true
    · simp only [mergeGapsAux, h, if_true]
      obtain ⟨h1, h2⟩ := ih (setField u f (getField v f)) v
      exact ⟨h1.trans (setField_id u f (getField v f)),
             h2.trans (setField_deleted_at u f (getField v f))⟩
    · simp only [mergeGapsAux, h, if_false]
      exact ih u v

theorem processMergeUsers_pres (dr : Bool) (mode : Option String) (ni : Bool) :
    ∀ (mus : List UserRec) (main : UserRec) (res : List (String × String))
      (ch : List Choice) (m1 : UserRec),
      loopMain (processMergeUsers dr mode ni mus main res ch) = some m1 →
      m1.id = main.id ∧ m1.deleted_at = main.deleted_at := by
  intro mus
  induction mus with
  | nil =>
    intro main res ch m1 h
    simp only [processMergeUsers, loopMain, Option.some.injEq] at h
    subst h
    exact ⟨rfl, rfl⟩
  | cons mu rest ih =>
    intro main res ch m1 h
    simp only [processMergeUsers] at h
    split at h
    · exact ih _ _ _ _ h
    · split at h
      · obtain ⟨h1, h2⟩ := ih _ _ _ _ h
        obtain ⟨g1, g2⟩ := mergeGapsAux_pres conflict_fields main mu
        exact ⟨h1.trans g1, h2.trans g2⟩
      · split at h
        · simp only [loopMain, Option.some.injEq] at h
          subst h
          exact ⟨rfl, rfl⟩
        · split at h
          · exact Option.noConfusion h
          · obtain ⟨h1, h2⟩ := ih _ _ _ _ h
            obtain ⟨g1, g2⟩ :=
              mergeGapsAux_pres conflict_fields (applyResolutions main res _).1 mu
            obtain ⟨a1, a2⟩ := applyResolutions_pres _ main res
            exact ⟨(h1.trans g1).trans a1, (h2.trans g2).trans a2⟩

theorem processMergeUsers_dry (mode : Option String) (ni : Bool) :
    ∀ (mus : List UserRec) (main : UserRec) (res : List (String × String))
      (ch : List Choice),
      processMergeUsers true mode ni mus main res ch = LoopOut.done main res := by
  intro mus
  induction mus with
  | nil => intro main res ch; rfl
  | cons mu rest ih =>
    intro main res ch
    simp only [processMergeUsers, if_pos rfl]
    exact ih main res ch

theorem processMergeUsers_no_emailStop (dr : Bool) (mode : Option String) :
    ∀ (mus : List UserRec) (main : UserRec) (res : List (String × String))
      (ch : List Choice) (m1 : UserRec),
      processMergeUsers dr mode false mus main res ch ≠ LoopOut.emailStop m1 := by
  intro mus
  induction mus with
  | nil => intro main res ch m1 h; cases h
  | cons mu rest ih =>
    intro main res ch m1 h
    simp only [processMergeUsers] at h
    split at h
    · exact ih _ _ _ _ h
    · split at h
      · exact ih _ _ _ _ h
      · split at h
        · simp_all
        · split at h
          · cases h
          · exact ih _ _ _ _ h

/-! ### Lemmas about the table: lookup, flush-back, fetch -/

theorem findUser_mem {db : List UserRec} {i : Nat} {u : UserRec}
    (h : findUser db i = some u) : u ∈ db ∧ u.id = i := by
  unfold findUser at h
  refine ⟨List.mem_of_find?_eq_some h, ?_⟩
  have h1 := List.find?_some h
  simpa using h1

theorem nodup_id_eq {db : List UserRec} (hnd : (db.map (fun u => u.id)).Nodup)
    {u v : UserRec} (hu : u ∈ db) (hv : v ∈ db) (hid : u.id = v.id) : u = v :=
  List.inj_on_of_nodup_map hnd hu hv hid

theorem idDeleted_updateUser (db : List UserRec) (u : UserRec)
    (h : ∀ v ∈ db, v.id = u.id → v.deleted_at = u.deleted_at) :
    idDeleted (updateUser db u) = idDeleted db := by
  simp only [idDeleted, updateUser, List.map_map]
  apply List.map_congr_left
  intro v hv
  by_cases hb : v.id = u.id
  · simp only [Function.comp_apply, if_pos hb]
    rw [← hb, ← h v hv hb]
  · simp only [Function.comp_apply, if_neg hb]

theorem findUser_map_id_preserving (db : List UserRec) (g : UserRec → UserRec)
    (hg : ∀ v, (g v).id = v.id) (i : Nat) :
    findUser (db.map g) i = (findUser db i).map g := by
  induction db with
  | nil => rfl
  | cons v rest ih =>
    simp only [List.map_cons, findUser, List.find?_cons]
    by_cases hb : (v.id == i) = true
    · rw [show ((g v).id == i) = true by rw [hg v]; exact hb, hb]
      rfl
    · rw [show ((g v).id == i) = (v.id == i) by rw [hg v], Bool.eq_false_iff.mpr hb]
      exact ih

theorem updateUser_eq_map (db : List UserRec) (u : UserRec) :
    updateUser db u = db.map (fun v => if v.id = u.id then u else v) := rfl

theorem commitUsers_eq_map (us : List UserRec) :
    ∀ db : List UserRec, commitUsers db us = db.map (pointUpdate us) := by
  induction us with
  | nil =>
    intro db
    have h0 : pointUpdate [] = fun v => v := rfl
    rw [h0]
    simp [commitUsers]
  | cons w ws ih =>
    intro db
    have h1 : commitUsers db (w :: ws) = commitUsers (updateUser db w) ws := rfl
    rw [h1, ih (updateUser db w), updateUser_eq_map, List.map_map]
    apply List.map_congr_left
    intro v _
    simp only [Function.comp_apply, pointUpdate, List.foldl_cons]

theorem pointUpdate_id (us : List UserRec) :
    ∀ v : UserRec, (pointUpdate us v).id = v.id := by
  induction us with
  | nil => intro v; rfl
  | cons w ws ih =>
    intro v
    simp only [pointUpdate, List.foldl_cons]
    by_cases hb : v.id = w.id
    · rw [if_pos hb]
      exact (ih w).trans hb.symm
    · rw [if_neg hb]
      exact ih v

theorem pointUpdate_deleted (us : List UserRec) (hall : ∀ w ∈ us, is_deleted w = true) :
    ∀ v : UserRec, (is_deleted v = true ∨ ∃ w ∈ us, w.id = v.id) →
      is_deleted (pointUpdate us v) = true := by
  induction us with
  | nil =>
    intro v hv
    rcases hv with hv | ⟨w, hw, _⟩
    · exact hv
    · cases hw
  | cons w ws ih =>
    intro v hv
    have hallws : ∀ w' ∈ ws, is_deleted w' = true := fun w' hw' => hall w' (List.mem_cons_of_mem w hw')
    simp only [pointUpdate, List.foldl_cons]
    by_cases hb : v.id = w.id
    · rw [if_pos hb]
      exact ih hallws w (Or.inl (hall w (List.mem_cons_self w ws)))
    · rw [if_neg hb]
      rcases hv with hv | ⟨w', hw', hid⟩
      · exact ih hallws v (Or.inl hv)
      · rcases List.mem_cons.mp hw' with rfl | hw'
        · exact absurd hid.symm hb
        · exact ih hallws v (Or.inr ⟨w', hw', hid⟩)

theorem fetchMergeUsers_eq_none_iff (db : List UserRec) :
    ∀ ids : List Nat, fetchMergeUsers db ids = none ↔
      ∃ i ∈ ids, findUser db i = none ∨
        ∃ u, findUser db i = some u ∧ is_deleted u = true := by
  intro ids
  induction ids with
  | nil => simp [fetchMergeUsers]
  | cons i rest ih =>
    simp only [fetchMergeUsers]
    cases hf : findUser db i with
    | none => simp [hf]
    | some u =>
      by_cases hd : is_deleted u = true
      · simp [hf, hd]
      · simp [hf, hd, ih]

theorem fetchMergeUsers_some_spec (db : List UserRec) :
    ∀ (ids : List Nat) (us : List UserRec), fetchMergeUsers db ids = some us →
      List.Forall₂ (fun i u => findUser db i = some u ∧ is_deleted u = false) ids us := by
  intro ids
  induction ids with
  | nil =>
    intro us h
    simp only [fetchMergeUsers, Option.some.injEq] at h
    subst h
    exact List.Forall₂.nil
  | cons i rest ih =>
    intro us h
    simp only [fetchMergeUsers] at h
    cases hf : findUser db i with
    | none => simp only [hf] at h; exact Option.noConfusion h
    | some u =>
      simp only [hf] at h
      by_cases hd : is_deleted u = true
      · rw [if_pos hd] at h; cases h
      · rw [if_neg hd] at h
        cases hrest : fetchMergeUsers db rest with
        | none => rw [hrest] at h; cases h
        | some us' =>
          rw [hrest] at h
          simp only [Option.map_some', Option.some.injEq] at h
          subst h
          exact List.Forall₂.cons ⟨hf, Bool.eq_false_iff.mpr hd⟩ (ih us' hrest)

/-! ### Lemmas about the Python-dict model of the resolution map -/

theorem dictGet_cons (p : String × String) (m : List (String × String)) (k : String) :
    dictGet (p :: m) k = if p.1 = k then some p.2 else dictGet m k := by
  by_cases h : p.1 = k
  · simp [dictGet, List.find?_cons, h]
  · simp [dictGet, List.find?_cons, h]

theorem dictGet_map_update (k v : String) :
    ∀ m : List (String × String),
      dictGet (m.map (fun p => if p.1 = k then (k, v) else p)) k =
        if m.any (fun p => p.1 == k) then some v else none := by
  intro m
  induction m with
  | nil => rfl
  | cons p m ih =>
    by_cases h : p.1 = k
    · simp [List.map_cons, dictGet_cons, h]
    · have hb : (p.1 == k) = false := by simpa using h
      simp only [List.map_cons, if_neg h, dictGet_cons, ih, List.any_cons, hb, Bool.false_or,
        if_neg h]

theorem dictGet_append_single (k v : String) :
    ∀ m : List (String × String), m.any (fun p => p.1 == k) = false →
      dictGet (m ++ [(k, v)]) k = some v := by
  intro m
  induction m with
  | nil => intro h; simp [dictGet, List.find?_cons]
  | cons p m ih =>
    intro h
    simp only [List.any_cons, Bool.or_eq_false_iff] at h
    have hp : ¬ p.1 = k := by simpa using h.1
    rw [List.cons_append, dictGet_cons, if_neg hp]
    exact ih h.2

theorem dictGet_dictInsert_self (m : List (String × String)) (k v : String) :
    dictGet (dictInsert m k v) k = some v := by
  unfold dictInsert
  by_cases h : m.any (fun p => p.1 == k) = true
  · rw [if_pos h, dictGet_map_update, if_pos h]
  · rw [if_neg h]
    exact dictGet_append_single k v m (Bool.eq_false_iff.mpr h)

theorem dictGet_map_update_ne (k v k' : String) (hne : k' ≠ k) :
    ∀ m : List (String × String),
      dictGet (m.map (fun p => if p.1 = k then (k, v) else p)) k' = dictGet m k' := by
  intro m
  induction m with
  | nil => rfl
  | cons p m ih =>
    by_cases hp : p.1 = k
    · have hk : ¬ (k = k') := fun hkk => hne hkk.symm
      have hp' : ¬ (p.1 = k') := fun hh => hk (hp ▸ hh)
      simp only [List.map_cons, if_pos hp, dictGet_cons, if_neg hk, if_neg hp']
      exact ih
    · simp only [List.map_cons, if_neg hp, dictGet_cons]
      by_cases hp' : p.1 = k'
      · rw [if_pos hp', if_pos hp']
      · rw [if_neg hp', if_neg hp']
        exact ih

theorem dictGet_append_single_ne (k v k' : String) (hne : k' ≠ k) :
    ∀ m : List (String × String), dictGet (m ++ [(k, v)]) k' = dictGet m k' := by
  intro m
  induction m with
  | nil =>
    have hk : ¬ (k = k') := fun hkk => hne hkk.symm
    simp [dictGet, List.find?_cons, hk]
  | cons p m ih =>
    rw [List.cons_append, dictGet_cons, dictGet_cons]
    by_cases hp' : p.1 = k'
    · rw [if_pos hp', if_pos hp']
    · rw [if_neg hp', if_neg hp']
      exact ih

theorem dictGet_dictInsert_ne (m : List (String × String)) (k v k' : String)
    (hne : k' ≠ k) : dictGet (dictInsert m k v) k' = dictGet m k' := by
  unfold dictInsert
  by_cases h : m.any (fun p => p.1 == k) = true
  · rw [if_pos h]
    exact dictGet_map_update_ne k v k' hne m
  · rw [if_neg h]
    exact dictGet_append_single_ne k v k' hne m

theorem upsertAll_cons (m : List (String × String)) (e : String × String)
    (evs : List (String × String)) :
    upsertAll m (e :: evs) = upsertAll (dictInsert m e.1 e.2) evs := rfl

theorem upsertAll_append (m : List (String × String)) (evs1 evs2 : List (String × String)) :
    upsertAll m (evs1 ++ evs2) = upsertAll (upsertAll m evs1) evs2 := by
  simp [upsertAll, List.foldl_append]

theorem dictGet_upsertAll (f : String) :
    ∀ (evs : List (String × String)) (m : List (String × String)),
      dictGet (upsertAll m evs) f =
        match lastWrite evs f with
        | some v => some v
        | none => dictGet m f := by
  intro evs
  induction evs with
  | nil => intro m; rfl
  | cons e evs ih =>
    intro m
    rw [upsertAll_cons, ih]
    cases hl : lastWrite evs f with
    | some v => simp [lastWrite, hl]
    | none =>
      simp only [lastWrite, hl]
      by_cases he : e.1 = f
      · subst he
        simp [dictGet_dictInsert_self]
      · simp [he, dictGet_dictInsert_ne m e.1 e.2 f (fun hh => he hh.symm)]

theorem lastWrite_isSome_iff (f : String) :
    ∀ evs : List (String × String),
      (lastWrite evs f).isSome = true ↔ f ∈ evs.map Prod.fst := by
  intro evs
  induction evs with
  | nil => simp [lastWrite]
  | cons e evs ih =>
    simp only [List.map_cons, List.mem_cons]
    cases hl : lastWrite evs f with
    | some v =>
      rw [show lastWrite (e :: evs) f = some v by simp [lastWrite, hl]]
      rw [hl] at ih
      simp only [Option.isSome_some, true_iff] at ih ⊢
      exact Or.inr ih
    | none =>
      rw [hl] at ih
      by_cases he : e.1 = f
      · rw [show lastWrite (e :: evs) f = some e.2 by simp [lastWrite, hl, he]]
        simp [he.symm]
      · rw [show lastWrite (e :: evs) f = none by simp [lastWrite, hl, he]]
        simp only [Option.isSome_none, Bool.false_eq_true, false_iff] at ih ⊢
        rintro (h1 | h2)
        · exact he h1.symm
        · exact ih h2

/-! ### Lemmas about the conflict resolver -/

theorem resolve_conflicts_auto (resolution_mode : Option String) (no_interactive : Bool)
    (hauto : (modeTruthy resolution_mode || no_interactive) = true) :
    ∀ (conflicts : List Conflict) (choices : List Choice),
      resolve_conflicts conflicts resolution_mode no_interactive choices =
        some (conflicts.map (fun c => (c.1, resolveAuto resolution_mode c.2.1 c.2.2)),
              choices) := by
  intro conflicts
  induction conflicts with
  | nil => intro choices; rfl
  | cons c rest ih =>
    intro choices
    obtain ⟨field, mv, gv⟩ := c
    simp only [resolve_conflicts, hauto, if_true, ih, List.map_cons]

theorem applyResolutions_split (rs : List (String × Option String × String)) :
    ∀ (u : UserRec) (m : List (String × String)),
      applyResolutions u m rs =
        ((applyResolutions u [] rs).1, upsertAll m (resolutionEvents rs)) := by
  induction rs with
  | nil => intro u m; rfl
  | cons r rs ih =>
    intro u m
    rw [applyResolutions_cons, ih, applyResolutions_cons]
    rw [ih (setField u r.1 r.2.1) (dictInsert [] r.1 r.2.2)]
    rfl

theorem applyResolutions_fst_indep (rs : List (String × Option String × String))
    (u : UserRec) (m : List (String × String)) :
    (applyResolutions u m rs).1 = (applyResolutions u [] rs).1 := by
  rw [applyResolutions_split]

theorem tagFilled_eq_upsertAll (filled : List String) :
    ∀ m : List (String × String), tagFilled m filled = upsertAll m (gapEvents filled) := by
  induction filled with
  | nil => intro m; rfl
  | cons f fs ih =>
    intro m
    simp only [tagFilled, gapEvents, List.map_cons, List.foldl_cons, upsertAll]
    exact ih (dictInsert m f "kept_duplicate")

theorem processMergeUsers_done_trace (mode : Option String) (ni : Bool) :
    ∀ (mus : List UserRec) (main : UserRec) (res : List (String × String))
      (ch : List Choice) (m1 : UserRec) (r1 : List (String × String)),
      processMergeUsers false mode ni mus main res ch = LoopOut.done m1 r1 →
      ∃ evs, processTrace mode ni mus main ch = some evs ∧ r1 = upsertAll res evs := by
  intro mus
  induction mus with
  | nil =>
    intro main res ch m1 r1 h
    cases h
    exact ⟨[], rfl, rfl⟩
  | cons mu rest ih =>
    intro main res ch m1 r1 h
    simp only [processMergeUsers, Bool.false_eq_true, if_false] at h
    by_cases hc : (detect_conflicts main mu).isEmpty = true
    · rw [if_pos hc] at h
      obtain ⟨evs, htr, hup⟩ := ih _ _ _ _ _ h
      refine ⟨gapEvents (merge_non_conflicting_fields main mu).2 ++ evs, ?_, ?_⟩
      · simp only [processTrace, if_pos hc, htr, Option.map_some']
      · rw [hup, upsertAll_append, tagFilled_eq_upsertAll]
    · rw [if_neg hc] at h
      by_cases hes : (ni && !modeTruthy mode
          && (detect_conflicts main mu).any (fun c => c.1 == "email")) = true
      · rw [if_pos hes] at h
        cases h
      · rw [if_neg hes] at h
        cases hres : resolve_conflicts (detect_conflicts main mu) mode ni ch with
        | none => rw [hres] at h; cases h
        | some pr =>
          obtain ⟨resolved, ch'⟩ := pr
          rw [hres] at h
          obtain ⟨evs, htr, hup⟩ := ih _ _ _ _ _ h
          rw [applyResolutions_fst_indep resolved main res] at htr
          refine ⟨resolutionEvents resolved
              ++ gapEvents (merge_non_conflicting_fields
                    (applyResolutions main [] resolved).1 mu).2
              ++ evs, ?_, ?_⟩
          · simp only [processTrace, if_neg hc, if_neg hes, hres, htr, Option.map_some']
          · rw [hup, upsertAll_append, upsertAll_append, tagFilled_eq_upsertAll]
            have h2 : (applyResolutions main res resolved).2
                = upsertAll res (resolutionEvents resolved) := by
              rw [applyResolutions_split]
            rw [h2, applyResolutions_fst_indep resolved main res]

/-! ### Lemmas about the gap-filling field merger -/

theorem mergeGapsAux_not_mem (g : String) :
    ∀ (l : List String) (u v : UserRec), g ∉ l →
      getField (mergeGapsAux l u v).1 g = getField u g := by
  intro l
  induction l with
  | nil => intro u v _; rfl
  | cons f l ih =>
    intro u v hg
    have hgf : g ≠ f := fun h => hg (h ▸ List.mem_cons_self f l)
    have hgl : g ∉ l := fun h => hg (List.mem_cons_of_mem f h)
    by_cases hc : (!truthy (getField u f) && truthy (getField v f)) = true
    · simp only [mergeGapsAux, hc, if_true]
      rw [ih (setField u f (getField v f)) v hgl]
      exact getField_setField_ne u g f (getField v f) (Ne.symm hgf)
    · simp only [mergeGapsAux, hc, if_false]
      exact ih u v hgl

theorem mergeGapsAux_truthy (v : UserRec) (f : String) (hcf : f ∈ conflict_fields) :
    ∀ (l : List String) (u : UserRec), l.Nodup → f ∈ l →
      truthy (getField v f) = true →
      truthy (getField (mergeGapsAux l u v).1 f) = true := by
  intro l
  induction l with
  | nil => intro u _ hf _; cases hf
  | cons g l ih =>
    intro u hnd hf htv
    have hndl : l.Nodup := (List.nodup_cons.mp hnd).2
    rcases List.mem_cons.mp hf with rfl | hfl
    · have hgl : f ∉ l := (List.nodup_cons.mp hnd).1
      by_cases hc : (!truthy (getField u f) && truthy (getField v f)) = true
      · simp only [mergeGapsAux, hc, if_true]
        rw [mergeGapsAux_not_mem f l _ v hgl,
          getField_setField_self u f (getField v f) hcf]
        exact htv
      · have htu : truthy (getField u f) = true := by
          cases htu0 : truthy (getField u f) with
          | true => rfl
          | false => exact absurd (by simp [htu0, htv]) hc
        simp only [mergeGapsAux]
        rw [if_neg hc, mergeGapsAux_not_mem f l u v hgl]
        exact htu
    · by_cases hc : (!truthy (getField u g) && truthy (getField v g)) = true
      · simp only [mergeGapsAux, hc, if_true]
        exact ih (setField u g (getField v g)) hndl hfl htv
      · simp only [mergeGapsAux]
        rw [if_neg hc]
        exact ih u hndl hfl htv

theorem mergeGapsAux_idem (v : UserRec) :
    ∀ (l : List String) (u : UserRec), l.Nodup → (∀ f ∈ l, f ∈ conflict_fields) →
      mergeGapsAux l (mergeGapsAux l u v).1 v = ((mergeGapsAux l u v).1, []) := by
  intro l
  induction l with
  | nil => intro u _ _; rfl
  | cons f l ih =>
    intro u hnd hsub
    have hfl : f ∉ l := (List.nodup_cons.mp hnd).1
    have hndl : l.Nodup := (List.nodup_cons.mp hnd).2
    have hsubl : ∀ g ∈ l, g ∈ conflict_fields :=
      fun g hg => hsub g (List.mem_cons_of_mem f hg)
    have hcf : f ∈ conflict_fields := hsub f (List.mem_cons_self f l)
    set w : UserRec :=
      if (!truthy (getField u f) && truthy (getField v f)) = true then
        setField u f (getField v f)
      else u with hw
    have hfirst : (mergeGapsAux (f :: l) u v).1 = (mergeGapsAux l w v).1 := by
      rw [hw]
      by_cases hc : (!truthy (getField u f) && truthy (getField v f)) = true
      · rw [if_pos hc]
        simp only [mergeGapsAux, hc, if_true]
      · rw [if_neg hc]
        simp only [mergeGapsAux]
        rw [if_neg hc]
    have hwf : truthy (getField v f) = true → truthy (getField w f) = true := by
      intro htv
      rw [hw]
      by_cases hc : (!truthy (getField u f) && truthy (getField v f)) = true
      · rw [if_pos hc, getField_setField_self u f (getField v f) hcf]
        exact htv
      · have htu : truthy (getField u f) = true := by
          cases htu0 : truthy (getField u f) with
          | true => rfl
          | false => exact absurd (by simp [htu0, htv]) hc
        rw [if_neg hc]
        exact htu
    have hcond2 : (!truthy (getField (mergeGapsAux l w v).1 f)
        && truthy (getField v f)) = false := by
      cases htv : truthy (getField v f) with
      | false => simp
      | true =>
        have h1 : truthy (getField (mergeGapsAux l w v).1 f) = true := by
          rw [mergeGapsAux_not_mem f l w v hfl]
          exact hwf htv
        simp [h1]
    rw [hfirst]
    simp only [mergeGapsAux]
    rw [if_neg (by rw [hcond2]; exact Bool.false_ne_true)]
    exact ih w hndl hsubl

/-! ### Characterisation of the conflict detector -/

theorem detect_conflicts_mem_iff (u v : UserRec) (f : String) (a b : Option String) :
    (f, a, b) ∈ detect_conflicts u v ↔
      f ∈ conflict_fields ∧ a = getField u f ∧ b = getField v f ∧
      truthy (getField u f) = true ∧ truthy (getField v f) = true ∧
      pyStrip (strOf (getField u f)) ≠ pyStrip (strOf (getField v f)) := by
  unfold detect_conflicts
  simp only [List.mem_filterMap]
  constructor
  · rintro ⟨g, hg, hsome⟩
    split at hsome
    · rename_i hcond
      simp only [Option.some.injEq, Prod.mk.injEq] at hsome
      obtain ⟨rfl, rfl, rfl⟩ := hsome
      simp only [Bool.and_eq_true, Bool.not_eq_true', beq_eq_false_iff_ne] at hcond
      exact ⟨hg, rfl, rfl, hcond.1.1, hcond.1.2, hcond.2⟩
    · exact Option.noConfusion hsome
  · rintro ⟨hf, rfl, rfl, h1, h2, h3⟩
    refine ⟨f, hf, ?_⟩
    have hcond : (truthy (getField u f) && truthy (getField v f)
        && !(pyStrip (strOf (getField u f)) == pyStrip (strOf (getField v f)))) = true := by
      simp only [h1, h2, Bool.true_and, Bool.and_eq_true, Bool.not_eq_true',
        beq_eq_false_iff_ne]
      exact h3
    simp only [if_pos hcond]

theorem resolveAuto_longest (mv gv : Option String) :
    resolveAuto (some "prefer_longest") mv gv =
      (if (strOf gv).length > (strOf mv).length then gv else mv, "kept_longest") := by
  unfold resolveAuto
  rw [if_neg (by decide), if_neg (by decide), if_pos rfl]
  split_ifs with h
  · rfl
  · rfl

/-! ### Claim theorems -/

/-- C3, counterexample to the claim as stated: with a whitespace-only primary
email (`" "`) and a duplicate email `"x"`, the detector DOES report a conflict
on `email`, although the primary value is empty after whitespace trimming —
refuting "it never reports a conflict on f when either side is empty after
trimming".  The source tests truthiness before trimming. -/
theorem detect_conflicts_whitespace_counterexample :
    ("email", some " ", some "x") ∈
        detect_conflicts (sampleUser 1 (some " ") none) (sampleUser 2 (some "x") none) ∧
      pyStrip (strOf (getField (sampleUser 1 (some " ") none) "email")) = "" := by
  constructor
  · decide
  · decide

/-- C3 (amended): for every mergeable field, `_detect_conflicts` reports a
conflict on `f` iff both values are non-null/non-empty BEFORE trimming
(Python truthiness) and their trimmed string forms differ; whitespace-only
values count as present even though they are empty after trimming. -/
theorem detect_conflicts_characterization (u v : UserRec) (f : String)
    (hf : f ∈ conflict_fields) :
    (∃ a b, (f, a, b) ∈ detect_conflicts u v) ↔
      truthy (getField u f) = true ∧ truthy (getField v f) = true ∧
      pyStrip (strOf (getField u f)) ≠ pyStrip (strOf (getField v f)) := by
  constructor
  · rintro ⟨a, b, hab⟩
    obtain ⟨_, _, _, h1, h2, h3⟩ := (detect_conflicts_mem_iff u v f a b).mp hab
    exact ⟨h1, h2, h3⟩
  · rintro ⟨h1, h2, h3⟩
    exact ⟨getField u f, getField v f,
      (detect_conflicts_mem_iff u v f _ _).mpr ⟨hf, rfl, rfl, h1, h2, h3⟩⟩

theorem detect_conflicts_characterization_witness :
    ∃ a b, ("phone", a, b) ∈ detect_conflicts (sampleUser 1 none (some "111"))
      (sampleUser 2 none (some "222")) :=
  (detect_conflicts_characterization (sampleUser 1 none (some "111"))
      (sampleUser 2 none (some "222")) "phone" (by decide)).mpr
    ⟨by decide, by decide, by decide⟩

/-- C8: with `resolution_mode = prefer_longest` the resolver maps every
conflicting field to the strictly longer of the two values, tagged
`kept_longest`; on equal lengths the primary's value is chosen (the source
only prefers the duplicate when it is strictly longer). -/
theorem resolve_prefer_longest_spec (conflicts : List Conflict) (no_interactive : Bool)
    (choices : List Choice) :
    resolve_conflicts conflicts (some "prefer_longest") no_interactive choices =
      some (conflicts.map (fun c =>
        (c.1, if (strOf c.2.2).length > (strOf c.2.1).length then c.2.2 else c.2.1,
          "kept_longest")), choices) ∧
    ∀ mv gv : Option String, (strOf mv).length = (strOf gv).length →
      resolveAuto (some "prefer_longest") mv gv = (mv, "kept_longest") := by
  constructor
  · rw [resolve_conflicts_auto (some "prefer_longest") no_interactive (by simp [modeTruthy])]
    simp only [resolveAuto_longest]
  · intro mv gv h
    rw [resolveAuto_longest, ← h, if_neg (lt_irrefl _)]

theorem resolve_prefer_longest_spec_witness :
    resolve_conflicts [("email", some "aa", some "bb")] (some "prefer_longest") true [] =
        some ([("email", some "aa", "kept_longest")], []) ∧
      resolveAuto (some "prefer_longest") (some "aa") (some "bb")
        = (some "aa", "kept_longest") := by
  have h := resolve_prefer_longest_spec [("email", some "aa", some "bb")] true []
  constructor
  · rw [h.1]
    decide
  · exact h.2 (some "aa") (some "bb") (by decide)

/-- C9: running the field merger twice on the same (primary, duplicate) pair
leaves the primary as after one run and fills nothing the second time: every
field filled by the first run is truthy afterwards, so the second pass's
fill condition never fires. -/
theorem merge_non_conflicting_fields_idempotent (u v : UserRec) :
    merge_non_conflicting_fields (merge_non_conflicting_fields u v).1 v =
      ((merge_non_conflicting_fields u v).1, []) := by
  unfold merge_non_conflicting_fields
  exact mergeGapsAux_idem v conflict_fields u (by decide) (fun f hf => hf)

/-- C10: when automatic resolution is active and the mode string is none of
`prefer_main`, `prefer_merge`, `prefer_longest`, the resolver silently falls
through to the default branch, resolving every conflict to the primary's value
with tag `kept_primary`; no error is raised for the unrecognized mode. -/
theorem resolve_unknown_mode_defaults_to_primary (conflicts : List Conflict) (m : String)
    (no_interactive : Bool) (choices : List Choice)
    (hm : m ∉ RESOLUTION_MODES)
    (hauto : (modeTruthy (some m) || no_interactive) = true) :
    resolve_conflicts conflicts (some m) no_interactive choices =
      some (conflicts.map (fun c => (c.1, c.2.1, "kept_primary")), choices) := by
  simp only [RESOLUTION_MODES, List.mem_cons, List.mem_singleton, not_or] at hm
  obtain ⟨hm1, hm2, hm3, -⟩ := hm
  rw [resolve_conflicts_auto (some m) no_interactive hauto]
  have hres : ∀ mv gv : Option String, resolveAuto (some m) mv gv = (mv, "kept_primary") := by
    intro mv gv
    unfold resolveAuto
    rw [if_neg (fun hh => hm1 (Option.some.inj hh)),
      if_neg (fun hh => hm2 (Option.some.inj hh)),
      if_neg (fun hh => hm3 (Option.some.inj hh))]
  simp only [hres]

theorem resolve_unknown_mode_defaults_to_primary_witness :
    resolve_conflicts [("phone", some "1", some "2")] (some "bogus") true [] =
      some ([("phone", some "1", "kept_primary")], []) := by
  have h := resolve_unknown_mode_defaults_to_primary [("phone", some "1", some "2")]
    "bogus" true [] (by decide) (by decide)
  rw [h]
  decide

/-- C4: if the primary or any requested duplicate is missing or already
soft-deleted, the whole operation returns exit code 4 with the database and
the audit log exactly as before: no soft-delete, no primary change, no partial
merge.  (When the argument validation of merge.py lines 340–360 also fails,
the exit code is the same 4 with the same unchanged state.) -/
theorem merge_not_found_all_or_nothing
    (db : List UserRec) (audit : List AuditEntry) (main_id : Nat) (merge_ids : List Nat)
    (dry_run : Bool) (mode : Option String) (ni : Bool) (choices : List Choice)
    (confirm audit_ok : Bool) (now : Nat)
    (hbad : (findUser db main_id = none ∨
        (∃ u, findUser db main_id = some u ∧ is_deleted u = true)) ∨
      (∃ i ∈ merge_ids, findUser db i = none ∨
        (∃ u, findUser db i = some u ∧ is_deleted u = true))) :
    merge_profiles db audit main_id merge_ids dry_run mode ni choices confirm audit_ok now
      = { exit_code := 4, db := db, audit := audit } := by
  unfold merge_profiles
  by_cases hv : (merge_ids.isEmpty || merge_ids.contains main_id) = true
  · rw [if_pos hv]
  · rw [if_neg hv]
    rcases hbad with (hnone | ⟨u, hu, hdel⟩) | hdup
    · simp only [hnone]
    · simp only [hu, hdel, if_true]
    · cases hf : findUser db main_id with
      | none => simp only [hf]
      | some u =>
        simp only [hf]
        by_cases hdel : is_deleted u = true
        · rw [if_pos hdel]
        · rw [if_neg hdel]
          have hfetch : fetchMergeUsers db merge_ids = none :=
            (fetchMergeUsers_eq_none_iff db merge_ids).mpr hdup
          simp only [hfetch]

theorem merge_not_found_all_or_nothing_witness :
    merge_profiles [sampleUser 1 none none] [] 1 [2] false none true [] true true 0
      = { exit_code := 4, db := [sampleUser 1 none none], audit := [] } :=
  merge_not_found_all_or_nothing [sampleUser 1 none none] [] 1 [2] false none true []
    true true 0 (Or.inr ⟨2, by decide, Or.inl (by decide)⟩)


/-- C5: a dry-run invocation never changes the database or the audit log; it
returns exit code 0, except that a validation or not-found/already-deleted
error occurring first returns 4 (still with nothing changed); when the
arguments are valid and every involved user exists and is live, the exit code
is 0. -/
theorem merge_dry_run_purity
    (db : List UserRec) (audit : List AuditEntry) (main_id : Nat) (merge_ids : List Nat)
    (mode : Option String) (ni : Bool) (choices : List Choice)
    (confirm audit_ok : Bool) (now : Nat) :
    (merge_profiles db audit main_id merge_ids true mode ni choices confirm audit_ok now).db
        = db ∧
    (merge_profiles db audit main_id merge_ids true mode ni choices confirm audit_ok now).audit
        = audit ∧
    ((merge_profiles db audit main_id merge_ids true mode ni choices confirm
        audit_ok now).exit_code = 0 ∨
      (merge_profiles db audit main_id merge_ids true mode ni choices confirm
        audit_ok now).exit_code = 4) ∧
    (merge_ids.isEmpty = false → merge_ids.contains main_id = false →
      (∃ u, findUser db main_id = some u ∧ is_deleted u = false) →
      (∀ i ∈ merge_ids, ∃ u, findUser db i = some u ∧ is_deleted u = false) →
      (merge_profiles db audit main_id merge_ids true mode ni choices confirm
        audit_ok now).exit_code = 0) := by
  have hcase :
      merge_profiles db audit main_id merge_ids true mode ni choices confirm audit_ok now
          = { exit_code := 4, db := db, audit := audit } ∨
        merge_profiles db audit main_id merge_ids true mode ni choices confirm audit_ok now
          = { exit_code := 0, db := db, audit := audit } := by
    by_cases hv : (merge_ids.isEmpty || merge_ids.contains main_id) = true
    · exact Or.inl (by
        simp only [merge_profiles, hv, eq_self_iff_true, if_true])
    · have hv2 : (merge_ids.isEmpty || merge_ids.contains main_id) = false :=
        Bool.eq_false_iff.mpr hv
      cases hf : findUser db main_id with
      | none =>
        exact Or.inl (by
          simp only [merge_profiles, hv2, Bool.false_eq_true, if_false, hf])
      | some u =>
        by_cases hdel : is_deleted u = true
        · exact Or.inl (by
            simp only [merge_profiles, hv2, Bool.false_eq_true, if_false, hf, hdel,
              eq_self_iff_true, if_true])
        · have hdel2 : is_deleted u = false := Bool.eq_false_iff.mpr hdel
          cases hfetch : fetchMergeUsers db merge_ids with
          | none =>
            exact Or.inl (by
              simp only [merge_profiles, hv2, Bool.false_eq_true, if_false, hf, hdel2,
                hfetch])
          | some us =>
            exact Or.inr (by
              simp only [merge_profiles, hv2, Bool.false_eq_true, if_false, hf, hdel2,
                hfetch, processMergeUsers_dry, eq_self_iff_true, if_true])
  have hvalid : merge_ids.isEmpty = false → merge_ids.contains main_id = false →
      (∃ u, findUser db main_id = some u ∧ is_deleted u = false) →
      (∀ i ∈ merge_ids, ∃ u, findUser db i = some u ∧ is_deleted u = false) →
      merge_profiles db audit main_id merge_ids true mode ni choices confirm audit_ok now
        = { exit_code := 0, db := db, audit := audit } := by
    intro h1 h2 h3 h4
    obtain ⟨u, hu, hudel⟩ := h3
    have hv : (merge_ids.isEmpty || merge_ids.contains main_id) = false := by
      rw [h1, h2]
      decide
    cases hfetch2 : fetchMergeUsers db merge_ids with
    | none =>
      obtain ⟨i, hi, hbad⟩ := (fetchMergeUsers_eq_none_iff db merge_ids).mp hfetch2
      obtain ⟨w, hw, hwdel⟩ := h4 i hi
      rcases hbad with hb | ⟨w', hw', hw'del⟩
      · rw [hw] at hb
        exact absurd hb (Option.noConfusion)
      · rw [hw] at hw'
        rw [Option.some.inj hw'] at hwdel
        rw [hwdel] at hw'del
        exact absurd hw'del Bool.false_ne_true
    | some us =>
      simp only [merge_profiles, hv, Bool.false_eq_true, if_false, hu, hudel, hfetch2,
        processMergeUsers_dry, eq_self_iff_true, if_true]
  rcases hcase with h | h
  · rw [h]
    refine ⟨rfl, rfl, Or.inr rfl, ?_⟩
    intro h1 h2 h3 h4
    rw [hvalid h1 h2 h3 h4] at h
    cases h
  · rw [h]
    exact ⟨rfl, rfl, Or.inl rfl, fun _ _ _ _ => rfl⟩

theorem merge_dry_run_purity_witness :
    (merge_profiles [sampleUser 1 (some "a@x.com") none, sampleUser 2 (some "b@x.com") none]
      [] 1 [2] true none true [] true true 0).exit_code = 0 :=
  (merge_dry_run_purity [sampleUser 1 (some "a@x.com") none, sampleUser 2 (some "b@x.com") none]
      [] 1 [2] none true [] true true 0).2.2.2 (by decide) (by decide)
    ⟨sampleUser 1 (some "a@x.com") none, by decide, rfl⟩
    (fun i hi => by
      simp only [List.mem_singleton] at hi
      subst hi
      exact ⟨sampleUser 2 (some "b@x.com") none, by decide, rfl⟩)

/-- C1, counterexample to the claim as stated: primary 1 (phone empty) and
duplicate 2 (phone `"555"`, no conflicts).  The operator declines the
confirmation prompt: the exit status is `5` (cancelled), no duplicate is
soft-deleted and no audit entry is written, but the gap-fill applied BEFORE
the prompt persists — the primary's phone is now `"555"`, refuting "every
mergeable field of the primary record ... unchanged".  (The loop mutates the
locked row before `_confirm_merge` runs, and the `return 5` leaves
`with session.begin():` normally, committing the pending change.) -/
theorem merge_cancel_mutation_counterexample :
    (merge_profiles [sampleUser 1 (some "a@x.com") none, sampleUser 2 none (some "555")]
        [] 1 [2] false none false [] false true 7).exit_code = 5 ∧
    findUser (merge_profiles [sampleUser 1 (some "a@x.com") none,
        sampleUser 2 none (some "555")] [] 1 [2] false none false [] false true 7).db 1
      = some (sampleUser 1 (some "a@x.com") (some "555")) ∧
    getField (sampleUser 1 (some "a@x.com") none) "phone" = none := by
  refine ⟨by decide, by decide, by decide⟩

/-- C1 (amended): when the operator declines the confirmation prompt of a
non-dry-run, interactive merge, the operation returns the cancelled status
(5; or 4 when a validation or lookup error occurred before the prompt, or 5
when the operator interrupted a resolution prompt), no duplicate's soft-delete
marker changes, and no audit entry is appended; however, conflict resolutions
and gap-fills already applied to the primary before the prompt persist. -/
theorem merge_cancel_no_soft_delete_no_audit
    (db : List UserRec) (audit : List AuditEntry) (main_id : Nat) (merge_ids : List Nat)
    (mode : Option String) (choices : List Choice) (audit_ok : Bool) (now : Nat)
    (hnd : (db.map (fun u => u.id)).Nodup) :
    (merge_profiles db audit main_id merge_ids false mode false choices false audit_ok
        now).audit = audit ∧
    idDeleted (merge_profiles db audit main_id merge_ids false mode false choices false
        audit_ok now).db = idDeleted db ∧
    ((merge_profiles db audit main_id merge_ids false mode false choices false audit_ok
        now).exit_code = 4 ∨
      (merge_profiles db audit main_id merge_ids false mode false choices false audit_ok
        now).exit_code = 5) := by
  by_cases hv : (merge_ids.isEmpty || merge_ids.contains main_id) = true
  · have h : merge_profiles db audit main_id merge_ids false mode false choices false
        audit_ok now = { exit_code := 4, db := db, audit := audit } := by
      simp only [merge_profiles, hv, eq_self_iff_true, if_true]
    rw [h]
    exact ⟨rfl, rfl, Or.inl rfl⟩
  · have hv2 : (merge_ids.isEmpty || merge_ids.contains main_id) = false :=
      Bool.eq_false_iff.mpr hv
    cases hf : findUser db main_id with
    | none =>
      have h : merge_profiles db audit main_id merge_ids false mode false choices false
          audit_ok now = { exit_code := 4, db := db, audit := audit } := by
        simp only [merge_profiles, hv2, Bool.false_eq_true, if_false, hf]
      rw [h]
      exact ⟨rfl, rfl, Or.inl rfl⟩
    | some u =>
      by_cases hdel : is_deleted u = true
      · have h : merge_profiles db audit main_id merge_ids false mode false choices false
            audit_ok now = { exit_code := 4, db := db, audit := audit } := by
          simp only [merge_profiles, hv2, Bool.false_eq_true, if_false, hf, hdel,
            eq_self_iff_true, if_true]
        rw [h]
        exact ⟨rfl, rfl, Or.inl rfl⟩
      · have hdel2 : is_deleted u = false := Bool.eq_false_iff.mpr hdel
        cases hfetch : fetchMergeUsers db merge_ids with
        | none =>
          have h : merge_profiles db audit main_id merge_ids false mode false choices false
              audit_ok now = { exit_code := 4, db := db, audit := audit } := by
            simp only [merge_profiles, hv2, Bool.false_eq_true, if_false, hf, hdel2, hfetch]
          rw [h]
          exact ⟨rfl, rfl, Or.inl rfl⟩
        | some us =>
          cases hloop : processMergeUsers false mode false us u [] choices with
          | emailStop m1 =>
            exact absurd hloop (processMergeUsers_no_emailStop false mode us u [] choices m1)
          | interrupted =>
            have h : merge_profiles db audit main_id merge_ids false mode false choices false
                audit_ok now = { exit_code := 5, db := db, audit := audit } := by
              simp only [merge_profiles, hv2, Bool.false_eq_true, if_false, hf, hdel2,
                hfetch, hloop]
            rw [h]
            exact ⟨rfl, rfl, Or.inr rfl⟩
          | done m1 res =>
            have h : merge_profiles db audit main_id merge_ids false mode false choices false
                audit_ok now = { exit_code := 5, db := updateUser db m1, audit := audit } := by
              simp only [merge_profiles, hv2, Bool.false_eq_true, if_false, hf, hdel2,
                hfetch, hloop, Bool.not_false, Bool.and_self, eq_self_iff_true, if_true]
            rw [h]
            refine ⟨rfl, ?_, Or.inr rfl⟩
            have hm1 : m1.id = u.id ∧ m1.deleted_at = u.deleted_at :=
              processMergeUsers_pres false mode false us u [] choices m1
                (by rw [hloop]; rfl)
            obtain ⟨humem, huid⟩ := findUser_mem hf
            apply idDeleted_updateUser
            intro v hvmem hvid
            have hveq : v = u := nodup_id_eq hnd hvmem humem (hvid.trans hm1.1)
            rw [hveq, ← hm1.2]

theorem merge_cancel_no_soft_delete_no_audit_witness :
    (merge_profiles [sampleUser 1 (some "a@x.com") none, sampleUser 2 none (some "555")]
        [] 1 [2] false none false [] false true 7).audit = [] ∧
    idDeleted (merge_profiles [sampleUser 1 (some "a@x.com") none,
        sampleUser 2 none (some "555")] [] 1 [2] false none false [] false true 7).db
      = idDeleted [sampleUser 1 (some "a@x.com") none, sampleUser 2 none (some "555")] ∧
    ((merge_profiles [sampleUser 1 (some "a@x.com") none, sampleUser 2 none (some "555")]
        [] 1 [2] false none false [] false true 7).exit_code = 4 ∨
      (merge_profiles [sampleUser 1 (some "a@x.com") none, sampleUser 2 none (some "555")]
        [] 1 [2] false none false [] false true 7).exit_code = 5) :=
  merge_cancel_no_soft_delete_no_audit
    [sampleUser 1 (some "a@x.com") none, sampleUser 2 none (some "555")]
    [] 1 [2] none [] true 7 (by decide)

theorem forall₂_mem_left {R : Nat → UserRec → Prop} :
    ∀ {ids : List Nat} {us : List UserRec}, List.Forall₂ R ids us →
      ∀ i ∈ ids, ∃ u ∈ us, R i u := by
  intro ids us h
  induction h with
  | nil => intro i hi; cases hi
  | cons hr _ ih =>
    intro i hi
    rcases List.mem_cons.mp hi with rfl | hi2
    · exact ⟨_, List.mem_cons_self _ _, hr⟩
    · obtain ⟨u, hu, hru⟩ := ih i hi2
      exact ⟨u, List.mem_cons_of_mem _ hu, hru⟩

/-- C7, counterexample to the claim as stated: a merge that commits (duplicate
2 soft-deleted, primary updated) whose audit write then fails returns the
GENERIC error status 1 — the same status `merge_profiles` uses for database
errors (merge.py lines 139–146) — with no success indication, rather than
reporting the merge as succeeded with a separately-reported logging failure.
The committed state is indeed kept (duplicate 2 stays soft-deleted). -/
theorem merge_audit_failure_counterexample :
    (merge_profiles [sampleUser 1 (some "a@x.com") none,
        sampleUser 2 (some "b@x.com") (some "555")]
        [] 1 [2] false (some "prefer_merge") true [] true false 7).exit_code = 1 ∧
    findUser (merge_profiles [sampleUser 1 (some "a@x.com") none,
        sampleUser 2 (some "b@x.com") (some "555")]
        [] 1 [2] false (some "prefer_merge") true [] true false 7).db 2
      = some { sampleUser 2 (some "b@x.com") (some "555") with deleted_at := some 7 } ∧
    (merge_profiles [sampleUser 1 (some "a@x.com") none,
        sampleUser 2 (some "b@x.com") (some "555")]
        [] 1 [2] false (some "prefer_merge") true [] true false 7).audit = [] := by
  refine ⟨by decide, by decide, by decide⟩

/-- C7 (amended): when the merge would commit (the same invocation with a
succeeding audit write returns 0) and the audit write fails, the committed
state is not rolled back — the database is identical to the success case and
every duplicate is soft-deleted — and no audit entry is appended; but the
failure is reported through the generic error exit code 1 (the same code used
for database failures during the merge), not separately from merge failure. -/
theorem merge_audit_failure_no_rollback_generic_error
    (db : List UserRec) (audit : List AuditEntry) (main_id : Nat) (merge_ids : List Nat)
    (mode : Option String) (ni : Bool) (choices : List Choice) (confirm : Bool) (now : Nat)
    (hsucc : (merge_profiles db audit main_id merge_ids false mode ni choices confirm
        true now).exit_code = 0) :
    (merge_profiles db audit main_id merge_ids false mode ni choices confirm
        false now).exit_code = 1 ∧
    (merge_profiles db audit main_id merge_ids false mode ni choices confirm
        false now).audit = audit ∧
    (merge_profiles db audit main_id merge_ids false mode ni choices confirm
        false now).db
      = (merge_profiles db audit main_id merge_ids false mode ni choices confirm
        true now).db ∧
    (∀ i ∈ merge_ids, ∃ u, findUser (merge_profiles db audit main_id merge_ids false mode
        ni choices confirm false now).db i = some u ∧ is_deleted u = true) := by
  by_cases hv : (merge_ids.isEmpty || merge_ids.contains main_id) = true
  · rw [show merge_profiles db audit main_id merge_ids false mode ni choices confirm true
        now = { exit_code := 4, db := db, audit := audit } from by
      simp only [merge_profiles, hv, eq_self_iff_true, if_true]] at hsucc
    simp at hsucc
  · have hv2 : (merge_ids.isEmpty || merge_ids.contains main_id) = false :=
      Bool.eq_false_iff.mpr hv
    cases hf : findUser db main_id with
    | none =>
      rw [show merge_profiles db audit main_id merge_ids false mode ni choices confirm
          true now = { exit_code := 4, db := db, audit := audit } from by
        simp only [merge_profiles, hv2, Bool.false_eq_true, if_false, hf]] at hsucc
      simp at hsucc
    | some u =>
      by_cases hdel : is_deleted u = true
      · rw [show merge_profiles db audit main_id merge_ids false mode ni choices confirm
            true now = { exit_code := 4, db := db, audit := audit } from by
          simp only [merge_profiles, hv2, Bool.false_eq_true, if_false, hf, hdel,
            eq_self_iff_true, if_true]] at hsucc
        simp at hsucc
      · have hdel2 : is_deleted u = false := Bool.eq_false_iff.mpr hdel
        cases hfetch : fetchMergeUsers db merge_ids with
        | none =>
          rw [show merge_profiles db audit main_id merge_ids false mode ni choices confirm
              true now = { exit_code := 4, db := db, audit := audit } from by
            simp only [merge_profiles, hv2, Bool.false_eq_true, if_false, hf, hdel2,
              hfetch]] at hsucc
          simp at hsucc
        | some us =>
          cases hloop : processMergeUsers false mode ni us u [] choices with
          | emailStop m1 =>
            rw [show merge_profiles db audit main_id merge_ids false mode ni choices
                confirm true now
                = { exit_code := 2, db := updateUser db m1, audit := audit } from by
              simp only [merge_profiles, hv2, Bool.false_eq_true, if_false, hf, hdel2,
                hfetch, hloop]] at hsucc
            simp at hsucc
          | interrupted =>
            rw [show merge_profiles db audit main_id merge_ids false mode ni choices
                confirm true now = { exit_code := 5, db := db, audit := audit } from by
              simp only [merge_profiles, hv2, Bool.false_eq_true, if_false, hf, hdel2,
                hfetch, hloop]] at hsucc
            simp at hsucc
          | done m1 res =>
            by_cases hcc : (!ni && !confirm) = true
            · rw [show merge_profiles db audit main_id merge_ids false mode ni choices
                  confirm true now
                  = { exit_code := 5, db := updateUser db m1, audit := audit } from by
                simp only [merge_profiles, hv2, Bool.false_eq_true, if_false, hf, hdel2,
                  hfetch, hloop, hcc, eq_self_iff_true, if_true]] at hsucc
              simp at hsucc
            · have hcc2 : (!ni && !confirm) = false := Bool.eq_false_iff.mpr hcc
              have hfail : merge_profiles db audit main_id merge_ids false mode ni choices
                  confirm false now
                  = { exit_code := 1,
                      db := updateUser (commitUsers db
                        (us.map (fun w => soft_delete w now))) m1,
                      audit := audit } := by
                simp only [merge_profiles, hv2, Bool.false_eq_true, if_false, hf, hdel2,
                  hfetch, hloop, hcc2]
              have hok : merge_profiles db audit main_id merge_ids false mode ni choices
                  confirm true now
                  = { exit_code := 0,
                      db := updateUser (commitUsers db
                        (us.map (fun w => soft_delete w now))) m1,
                      audit := audit ++ [mkAuditEntry now main_id merge_ids res] } := by
                simp only [merge_profiles, hv2, Bool.false_eq_true, if_false, hf, hdel2,
                  hfetch, hloop, hcc2, eq_self_iff_true, if_true]
              rw [hfail, hok]
              refine ⟨rfl, rfl, rfl, ?_⟩
              intro i hi
              have hm1 : m1.id = u.id ∧ m1.deleted_at = u.deleted_at :=
                processMergeUsers_pres false mode ni us u [] choices m1
                  (by rw [hloop]; rfl)
              obtain ⟨humem, huid⟩ := findUser_mem hf
              have hspec := fetchMergeUsers_some_spec db merge_ids us hfetch
              obtain ⟨w, hwmem, hwfind, hwdel⟩ := forall₂_mem_left hspec i hi
              have hwid : w.id = i := (findUser_mem hwfind).2
              have hmap : updateUser (commitUsers db (us.map (fun w => soft_delete w now))) m1
                  = db.map (fun v =>
                      if (pointUpdate (us.map (fun w => soft_delete w now)) v).id = m1.id
                      then m1 else pointUpdate (us.map (fun w => soft_delete w now)) v) := by
                rw [commitUsers_eq_map, updateUser_eq_map, List.map_map]
                rfl
              have hgid : ∀ v : UserRec,
                  ((fun v =>
                    if (pointUpdate (us.map (fun w => soft_delete w now)) v).id = m1.id
                    then m1 else pointUpdate (us.map (fun w => soft_delete w now)) v) v).id
                  = v.id := by
                intro v
                by_cases hb : (pointUpdate (us.map (fun w => soft_delete w now)) v).id = m1.id
                · simp only [hb, if_true, eq_self_iff_true]
                  rw [← hb, pointUpdate_id]
                · simp only [hb, if_false]
                  exact pointUpdate_id _ v
              have hfind1 : findUser (updateUser (commitUsers db
                  (us.map (fun w => soft_delete w now))) m1) i
                  = (findUser db i).map (fun v =>
                      if (pointUpdate (us.map (fun w => soft_delete w now)) v).id = m1.id
                      then m1 else pointUpdate (us.map (fun w => soft_delete w now)) v) := by
                rw [hmap]
                exact findUser_map_id_preserving db _ hgid i
              have hine : i ≠ main_id := by
                intro hh
                subst hh
                have hmem2 : merge_ids.contains i = true := List.elem_eq_true_of_mem hi
                rw [hmem2] at hv2
                simp at hv2
              have hpu : is_deleted (pointUpdate (us.map (fun w => soft_delete w now)) w)
                  = true := by
                apply pointUpdate_deleted
                · intro w' hw'
                  obtain ⟨w0, _, hw0⟩ := List.mem_map.mp hw'
                  rw [← hw0]
                  rfl
                · exact Or.inr ⟨soft_delete w now,
                    List.mem_map.mpr ⟨w, hwmem, rfl⟩, rfl⟩
              have hpid : (pointUpdate (us.map (fun w => soft_delete w now)) w).id = w.id :=
                pointUpdate_id _ w
              have hnotmain : ¬ (pointUpdate (us.map (fun w => soft_delete w now)) w).id
                  = m1.id := by
                rw [hpid, hwid, hm1.1, huid]
                exact hine
              refine ⟨pointUpdate (us.map (fun w => soft_delete w now)) w, ?_, hpu⟩
              rw [hfind1, hwfind, Option.map_some']
              rw [if_neg hnotmain]

theorem merge_audit_failure_no_rollback_generic_error_witness :
    (merge_profiles [sampleUser 1 (some "a@x.com") none,
        sampleUser 2 (some "b@x.com") (some "555")]
        [] 1 [2] false (some "prefer_merge") true [] true false 7).exit_code = 1 ∧
    (merge_profiles [sampleUser 1 (some "a@x.com") none,
        sampleUser 2 (some "b@x.com") (some "555")]
        [] 1 [2] false (some "prefer_merge") true [] true false 7).audit = [] ∧
    (merge_profiles [sampleUser 1 (some "a@x.com") none,
        sampleUser 2 (some "b@x.com") (some "555")]
        [] 1 [2] false (some "prefer_merge") true [] true false 7).db
      = (merge_profiles [sampleUser 1 (some "a@x.com") none,
        sampleUser 2 (some "b@x.com") (some "555")]
        [] 1 [2] false (some "prefer_merge") true [] true true 7).db ∧
    (∀ i ∈ [2], ∃ u, findUser (merge_profiles [sampleUser 1 (some "a@x.com") none,
        sampleUser 2 (some "b@x.com") (some "555")]
        [] 1 [2] false (some "prefer_merge") true [] true false 7).db i = some u ∧
        is_deleted u = true) :=
  merge_audit_failure_no_rollback_generic_error
    [sampleUser 1 (some "a@x.com") none, sampleUser 2 (some "b@x.com") (some "555")]
    [] 1 [2] (some "prefer_merge") true [] true 7 (by decide)

theorem mergeGapsAux_truthy_preserved (f : String) :
    ∀ (l : List String) (u v : UserRec), truthy (getField u f) = true →
      getField (mergeGapsAux l u v).1 f = getField u f := by
  intro l
  induction l with
  | nil => intro u v _; rfl
  | cons g l ih =>
    intro u v htu
    by_cases hc : (!truthy (getField u g) && truthy (getField v g)) = true
    · have h1 : (!truthy (getField u g)) = true := by
        simp only [Bool.and_eq_true] at hc
        exact hc.1
      have hgf : g ≠ f := by
        intro hh
        subst hh
        rw [htu] at h1
        simp at h1
      have hget : getField (setField u g (getField v g)) f = getField u f :=
        getField_setField_ne u f g (getField v g) hgf
      simp only [mergeGapsAux, hc, if_true]
      rw [ih (setField u g (getField v g)) v (by rw [hget]; exact htu), hget]
    · simp only [mergeGapsAux]
      rw [if_neg hc]
      exact ih u v htu

theorem applyResolutions_getField_ne (f : String) :
    ∀ (rs : List (String × Option String × String)) (u : UserRec)
      (m : List (String × String)), (∀ r ∈ rs, r.1 ≠ f) →
      getField (applyResolutions u m rs).1 f = getField u f := by
  intro rs
  induction rs with
  | nil => intro u m _; rfl
  | cons r rs ih =>
    intro u m hne
    rw [applyResolutions_cons]
    rw [ih _ _ (fun r' hr' => hne r' (List.mem_cons_of_mem r hr'))]
    exact getField_setField_ne u f r.1 r.2.1 (hne r (List.mem_cons_self r rs))

theorem processMergeUsers_emailStop_of_conflict (mode : Option String)
    (hmode : modeTruthy mode = false) :
    ∀ (mus : List UserRec) (main : UserRec) (res : List (String × String))
      (ch : List Choice),
      (∃ d ∈ mus, ∃ a b, ("email", a, b) ∈ detect_conflicts main d) →
      ∃ m1, processMergeUsers false mode true mus main res ch = LoopOut.emailStop m1 := by
  intro mus
  induction mus with
  | nil =>
    rintro main res ch ⟨d, hd, -⟩
    cases hd
  | cons mu rest ih =>
    rintro main res ch ⟨d, hd, a, b, hconf⟩
    obtain ⟨-, ha, hb, htm, htd, hne⟩ := (detect_conflicts_mem_iff main d "email" a b).mp hconf
    rcases List.mem_cons.mp hd with rfl | hdrest
    · have hemp : (detect_conflicts main d).isEmpty = false := by
        cases hdc : detect_conflicts main d with
        | nil => rw [hdc] at hconf; cases hconf
        | cons c cs => rfl
      have hany : (detect_conflicts main d).any (fun c => c.1 == "email") = true :=
        List.any_eq_true.mpr ⟨("email", a, b), hconf, by simp⟩
      refine ⟨main, ?_⟩
      simp only [processMergeUsers, Bool.false_eq_true, if_false, hemp, hmode, hany,
        Bool.not_false, Bool.true_and, Bool.and_true, eq_self_iff_true, if_true]
    · by_cases hemp : (detect_conflicts main mu).isEmpty = true
      · have hmail : getField (merge_non_conflicting_fields main mu).1 "email"
            = getField main "email" :=
          mergeGapsAux_truthy_preserved "email" conflict_fields main mu htm
        have hconf2 : ∃ d2 ∈ rest, ∃ a2 b2, ("email", a2, b2) ∈
            detect_conflicts (merge_non_conflicting_fields main mu).1 d2 := by
          refine ⟨d, hdrest, getField (merge_non_conflicting_fields main mu).1 "email",
            getField d "email",
            (detect_conflicts_mem_iff _ d "email" _ _).mpr
              ⟨by decide, rfl, rfl, ?_, ?_, ?_⟩⟩
          · rw [hmail]
            exact htm
          · rw [← hb] at htd
            rw [← hb]
            exact htd
          · rw [hmail]
            rw [← hb] at hne
            rw [← hb]
            exact hne
        obtain ⟨m1, hm1⟩ := ih (merge_non_conflicting_fields main mu).1
          (tagFilled res (merge_non_conflicting_fields main mu).2) ch hconf2
        refine ⟨m1, ?_⟩
        simp only [processMergeUsers, Bool.false_eq_true, if_false, hemp,
          eq_self_iff_true, if_true]
        exact hm1
      · have hempF : (detect_conflicts main mu).isEmpty = false :=
          Bool.eq_false_iff.mpr hemp
        by_cases hany : (detect_conflicts main mu).any (fun c => c.1 == "email") = true
        · refine ⟨main, ?_⟩
          simp only [processMergeUsers, Bool.false_eq_true, if_false, hempF, hmode, hany,
            Bool.not_false, Bool.true_and, Bool.and_true, eq_self_iff_true, if_true]
        · have hanyF : (detect_conflicts main mu).any (fun c => c.1 == "email") = false :=
            Bool.eq_false_iff.mpr hany
          have hres := resolve_conflicts_auto mode true (by rw [Bool.or_true])
            (detect_conflicts main mu) ch
          have hrne : ∀ r ∈ (detect_conflicts main mu).map
              (fun c => (c.1, resolveAuto mode c.2.1 c.2.2)), r.1 ≠ "email" := by
            intro r hr hreq
            obtain ⟨c, hc, hrc⟩ := List.mem_map.mp hr
            have hc1 : c.1 = "email" := by rw [← hrc] at hreq; exact hreq
            have : (detect_conflicts main mu).any (fun c => c.1 == "email") = true :=
              List.any_eq_true.mpr ⟨c, hc, beq_iff_eq.mpr hc1⟩
            rw [this] at hanyF
            cases hanyF
          set resolved := (detect_conflicts main mu).map
            (fun c => (c.1, resolveAuto mode c.2.1 c.2.2)) with hresolved
          have hmail1 : getField (applyResolutions main res resolved).1 "email"
              = getField main "email" :=
            applyResolutions_getField_ne "email" resolved main res hrne
          have hmail2 : getField (merge_non_conflicting_fields
              (applyResolutions main res resolved).1 mu).1 "email"
              = getField main "email" :=
            (mergeGapsAux_truthy_preserved "email" conflict_fields
              (applyResolutions main res resolved).1 mu
              (by rw [hmail1]; exact htm)).trans hmail1
          have hconf2 : ∃ d2 ∈ rest, ∃ a2 b2, ("email", a2, b2) ∈
              detect_conflicts (merge_non_conflicting_fields
                (applyResolutions main res resolved).1 mu).1 d2 := by
            refine ⟨d, hdrest, _, _,
              (detect_conflicts_mem_iff _ d "email" _ _).mpr
                ⟨by decide, rfl, rfl, ?_, ?_, ?_⟩⟩
            · rw [hmail2]
              exact htm
            · rw [← hb] at htd
              rw [← hb]
              exact htd
            · rw [hmail2]
              rw [← hb] at hne
              rw [← hb]
              exact hne
          obtain ⟨m1, hm1⟩ := ih (merge_non_conflicting_fields
              (applyResolutions main res resolved).1 mu).1
            (tagFilled (applyResolutions main res resolved).2
              (merge_non_conflicting_fields (applyResolutions main res resolved).1 mu).2)
            ch hconf2
          refine ⟨m1, ?_⟩
          simp only [processMergeUsers, Bool.false_eq_true, if_false, hempF, hanyF,
            Bool.and_false, hres]
          exact hm1

/-- C2, counterexample to the claim as stated: primary 1, duplicates [2, 3];
duplicate 2 gap-fills the primary's phone, then duplicate 3 raises the email
hard stop.  The operation fails with exit code 2, but the primary's phone was
already changed (and committed by the context-manager exit), refuting "no
field of the primary changes ... regardless of how many duplicates were
requested or already processed". -/
theorem merge_email_conflict_prior_mutation_counterexample :
    (merge_profiles [sampleUser 1 (some "a@x.com") none, sampleUser 2 none (some "555"),
        sampleUser 3 (some "b@x.com") none]
        [] 1 [2, 3] false none true [] true true 7).exit_code = 2 ∧
    findUser (merge_profiles [sampleUser 1 (some "a@x.com") none,
        sampleUser 2 none (some "555"), sampleUser 3 (some "b@x.com") none]
        [] 1 [2, 3] false none true [] true true 7).db 1
      = some (sampleUser 1 (some "a@x.com") (some "555")) ∧
    getField (sampleUser 1 (some "a@x.com") none) "phone" = none := by
  refine ⟨by decide, by decide, by decide⟩

/-- C2 (amended): in non-interactive mode with no (truthy) resolution mode,
when any duplicate has an email conflict with the primary as fetched, the
operation fails with the ambiguous-identity-conflict exit code 2 before
soft-deleting any duplicate or appending any audit entry — but fields of the
primary already resolved or gap-filled from duplicates processed before the
conflicting one keep their new values. -/
theorem merge_email_conflict_non_interactive_hard_stop
    (db : List UserRec) (audit : List AuditEntry) (main_id : Nat) (merge_ids : List Nat)
    (mode : Option String) (choices : List Choice) (confirm audit_ok : Bool) (now : Nat)
    (hmode : modeTruthy mode = false)
    (hnd : (db.map (fun u => u.id)).Nodup)
    (main_user : UserRec) (merge_users : List UserRec)
    (hf : findUser db main_id = some main_user)
    (hdel : is_deleted main_user = false)
    (hfetch : fetchMergeUsers db merge_ids = some merge_users)
    (hvalid : (merge_ids.isEmpty || merge_ids.contains main_id) = false)
    (hconf : ∃ d ∈ merge_users, ∃ a b, ("email", a, b) ∈ detect_conflicts main_user d) :
    (merge_profiles db audit main_id merge_ids false mode true choices confirm audit_ok
        now).exit_code = 2 ∧
    (merge_profiles db audit main_id merge_ids false mode true choices confirm audit_ok
        now).audit = audit ∧
    idDeleted (merge_profiles db audit main_id merge_ids false mode true choices confirm
        audit_ok now).db = idDeleted db := by
  obtain ⟨m1, hloop⟩ := processMergeUsers_emailStop_of_conflict mode hmode merge_users
    main_user [] choices hconf
  have h : merge_profiles db audit main_id merge_ids false mode true choices confirm
      audit_ok now = { exit_code := 2, db := updateUser db m1, audit := audit } := by
    simp only [merge_profiles, hvalid, Bool.false_eq_true, if_false, hf, hdel, hfetch,
      hloop]
  rw [h]
  refine ⟨rfl, rfl, ?_⟩
  have hm1 : m1.id = main_user.id ∧ m1.deleted_at = main_user.deleted_at :=
    processMergeUsers_pres false mode true merge_users main_user [] choices m1
      (by rw [hloop]; rfl)
  obtain ⟨humem, huid⟩ := findUser_mem hf
  apply idDeleted_updateUser
  intro v hvmem hvid
  have hveq : v = main_user := nodup_id_eq hnd hvmem humem (hvid.trans hm1.1)
  rw [hveq, ← hm1.2]

theorem merge_email_conflict_non_interactive_hard_stop_witness :
    (merge_profiles [sampleUser 1 (some "a@x.com") none, sampleUser 2 none (some "555"),
        sampleUser 3 (some "b@x.com") none]
        [] 1 [2, 3] false none true [] true true 7).exit_code = 2 ∧
    (merge_profiles [sampleUser 1 (some "a@x.com") none, sampleUser 2 none (some "555"),
        sampleUser 3 (some "b@x.com") none]
        [] 1 [2, 3] false none true [] true true 7).audit = [] ∧
    idDeleted (merge_profiles [sampleUser 1 (some "a@x.com") none,
        sampleUser 2 none (some "555"), sampleUser 3 (some "b@x.com") none]
        [] 1 [2, 3] false none true [] true true 7).db
      = idDeleted [sampleUser 1 (some "a@x.com") none, sampleUser 2 none (some "555"),
        sampleUser 3 (some "b@x.com") none] :=
  merge_email_conflict_non_interactive_hard_stop
    [sampleUser 1 (some "a@x.com") none, sampleUser 2 none (some "555"),
      sampleUser 3 (some "b@x.com") none]
    [] 1 [2, 3] none [] true true 7 rfl (by decide)
    (sampleUser 1 (some "a@x.com") none)
    [sampleUser 2 none (some "555"), sampleUser 3 (some "b@x.com") none]
    (by decide) rfl (by decide) (by decide)
    ⟨sampleUser 3 (some "b@x.com") none, by decide,
      some "a@x.com", some "b@x.com", by decide⟩

/-- C6: every successful non-dry-run merge appends exactly one audit entry:
event `MERGE_PROFILE`, `primary_id` = the requested primary, `merged_ids` =
the duplicate ids in caller order, and `field_resolutions` = the Python-dict
replay (`upsertAll`) of the ordered write trace `evs` of the per-duplicate
loop (for each duplicate in order: its conflict resolutions with their tags,
then its gap-filled fields tagged `kept_duplicate`).  Consequently a field has
an entry iff it was conflict-resolved or gap-filled for some duplicate, and
its recorded tag is that of the LAST write — later duplicates overwrite
earlier resolutions of the same field. -/
theorem merge_audit_completeness
    (db : List UserRec) (audit : List AuditEntry) (main_id : Nat) (merge_ids : List Nat)
    (mode : Option String) (ni : Bool) (choices : List Choice) (confirm audit_ok : Bool)
    (now : Nat)
    (hsucc : (merge_profiles db audit main_id merge_ids false mode ni choices confirm
        audit_ok now).exit_code = 0) :
    ∃ main_user merge_users evs,
      findUser db main_id = some main_user ∧
      fetchMergeUsers db merge_ids = some merge_users ∧
      processTrace mode ni merge_users main_user choices = some evs ∧
      (merge_profiles db audit main_id merge_ids false mode ni choices confirm audit_ok
          now).audit
        = audit ++ [mkAuditEntry now main_id merge_ids (upsertAll [] evs)] ∧
      (∀ f, dictGet (upsertAll [] evs) f = lastWrite evs f) ∧
      (∀ f, (lastWrite evs f).isSome = true ↔ f ∈ evs.map Prod.fst) := by
  by_cases hv : (merge_ids.isEmpty || merge_ids.contains main_id) = true
  · rw [show merge_profiles db audit main_id merge_ids false mode ni choices confirm
        audit_ok now = { exit_code := 4, db := db, audit := audit } from by
      simp only [merge_profiles, hv, eq_self_iff_true, if_true]] at hsucc
    simp at hsucc
  · have hv2 : (merge_ids.isEmpty || merge_ids.contains main_id) = false :=
      Bool.eq_false_iff.mpr hv
    cases hf : findUser db main_id with
    | none =>
      rw [show merge_profiles db audit main_id merge_ids false mode ni choices confirm
          audit_ok now = { exit_code := 4, db := db, audit := audit } from by
        simp only [merge_profiles, hv2, Bool.false_eq_true, if_false, hf]] at hsucc
      simp at hsucc
    | some u =>
      by_cases hdel : is_deleted u = true
      · rw [show merge_profiles db audit main_id merge_ids false mode ni choices confirm
            audit_ok now = { exit_code := 4, db := db, audit := audit } from by
          simp only [merge_profiles, hv2, Bool.false_eq_true, if_false, hf, hdel,
            eq_self_iff_true, if_true]] at hsucc
        simp at hsucc
      · have hdel2 : is_deleted u = false := Bool.eq_false_iff.mpr hdel
        cases hfetch : fetchMergeUsers db merge_ids with
        | none =>
          rw [show merge_profiles db audit main_id merge_ids false mode ni choices confirm
              audit_ok now = { exit_code := 4, db := db, audit := audit } from by
            simp only [merge_profiles, hv2, Bool.false_eq_true, if_false, hf, hdel2,
              hfetch]] at hsucc
          simp at hsucc
        | some us =>
          cases hloop : processMergeUsers false mode ni us u [] choices with
          | emailStop m1 =>
            rw [show merge_profiles db audit main_id merge_ids false mode ni choices
                confirm audit_ok now
                = { exit_code := 2, db := updateUser db m1, audit := audit } from by
              simp only [merge_profiles, hv2, Bool.false_eq_true, if_false, hf, hdel2,
                hfetch, hloop]] at hsucc
            simp at hsucc
          | interrupted =>
            rw [show merge_profiles db audit main_id merge_ids false mode ni choices
                confirm audit_ok now = { exit_code := 5, db := db, audit := audit } from by
              simp only [merge_profiles, hv2, Bool.false_eq_true, if_false, hf, hdel2,
                hfetch, hloop]] at hsucc
            simp at hsucc
          | done m1 res =>
            by_cases hcc : (!ni && !confirm) = true
            · rw [show merge_profiles db audit main_id merge_ids false mode ni choices
                  confirm audit_ok now
                  = { exit_code := 5, db := updateUser db m1, audit := audit } from by
                simp only [merge_profiles, hv2, Bool.false_eq_true, if_false, hf, hdel2,
                  hfetch, hloop, hcc, eq_self_iff_true, if_true]] at hsucc
              simp at hsucc
            · have hcc2 : (!ni && !confirm) = false := Bool.eq_false_iff.mpr hcc
              cases haud : audit_ok with
              | false =>
                rw [show merge_profiles db audit main_id merge_ids false mode ni choices
                    confirm audit_ok now
                    = { exit_code := 1,
                        db := updateUser (commitUsers db
                          (us.map (fun w => soft_delete w now))) m1,
                        audit := audit } from by
                  simp only [merge_profiles, hv2, Bool.false_eq_true, if_false, hf, hdel2,
                    hfetch, hloop, hcc2, haud]] at hsucc
                simp at hsucc
              | true =>
                obtain ⟨evs, htr, hup⟩ := processMergeUsers_done_trace mode ni us u []
                  choices m1 res hloop
                refine ⟨u, us, evs, rfl, rfl, htr, ?_, ?_, ?_⟩
                · rw [show merge_profiles db audit main_id merge_ids false mode ni choices
                      confirm true now
                      = { exit_code := 0,
                          db := updateUser (commitUsers db
                            (us.map (fun w => soft_delete w now))) m1,
                          audit := audit ++ [mkAuditEntry now main_id merge_ids res] }
                      from by
                    simp only [merge_profiles, hv2, Bool.false_eq_true, if_false, hf,
                      hdel2, hfetch, hloop, hcc2, eq_self_iff_true, if_true]]
                  rw [hup]
                · intro f
                  exact (dictGet_upsertAll f evs []).trans
                    (by cases lastWrite evs f <;> rfl)
                · intro f
                  exact lastWrite_isSome_iff f evs

theorem merge_audit_completeness_witness :
    ∃ main_user merge_users evs,
      findUser [sampleUser 1 (some "a@x.com") none,
          sampleUser 2 (some "b@x.com") (some "555")] 1 = some main_user ∧
      fetchMergeUsers [sampleUser 1 (some "a@x.com") none,
          sampleUser 2 (some "b@x.com") (some "555")] [2] = some merge_users ∧
      processTrace (some "prefer_merge") true merge_users main_user [] = some evs ∧
      (merge_profiles [sampleUser 1 (some "a@x.com") none,
          sampleUser 2 (some "b@x.com") (some "555")]
          [] 1 [2] false (some "prefer_merge") true [] true true 7).audit
        = [] ++ [mkAuditEntry 7 1 [2] (upsertAll [] evs)] ∧
      (∀ f, dictGet (upsertAll [] evs) f = lastWrite evs f) ∧
      (∀ f, (lastWrite evs f).isSome = true ↔ f ∈ evs.map Prod.fst) :=
  merge_audit_completeness
    [sampleUser 1 (some "a@x.com") none, sampleUser 2 (some "b@x.com") (some "555")]
    [] 1 [2] (some "prefer_merge") true [] true true 7 (by decide)
